import Mathlib

/-!
Verification of the ya-binary-format codec (ya-binary-format/src/types.rs).

Shallow embedding conventions:
- A byte is a `Nat` (meaningful values are below 256); a buffer is a `List Nat`.
- The Rust decode functions take a mutable cursor and panic on any contract
  violation (buffer underflow, invalid UTF-8).  A decode step is modelled as
  a function `List Nat → Option (α × List Nat)` returning the decoded value
  together with the bytes left unread; `none` models the fatal
  (process-terminating) failure, since the Rust code never returns an error
  value from decode.
- Rust `f32` / `f64` values are modelled by their IEEE-754 bit patterns
  (a `Nat`): the codec only moves the bit pattern via `to_le_bytes` /
  `get_f32_le` and never interprets it, so equality in the model is
  bit-pattern equality.
- Hash-based collections (`HashSet`, `HashMap`) and `BinaryHeap` are modelled
  by their iteration sequence (a `List`), which is exactly what
  `iter_to_impl!` / `kv_to_impl!` consume; two logically-equal Rust values
  may present different iteration sequences.
-/

namespace YaBinary

/-- Little-endian byte sequence of `v`, exactly `w` bytes long.  Models Rust
`to_le_bytes` on a `w`-byte integer, including the truncation performed by
`as u32` / `as u64` casts (only `v mod 256 ^ w` is represented). -/
def leBytes : Nat → Nat → List Nat
  | 0, _ => []
  | w + 1, v => v % 256 :: leBytes w (v / 256)

/-- Numeric value of a little-endian byte sequence. -/
def leValue : List Nat → Nat
  | [] => 0
  | b :: rest => b + 256 * leValue rest

/-- Modelled from the spec: the Byte Cursor (`Bytes` in ya-binary-format's
lib.rs, a file not among the given sources) backs the `get_u8`,
`get_u16_le`, ..., `get_u128_le` reads used by `FromBytes` impls.  Per spec
§4.1 it consumes exactly `w` bytes as little-endian and advances, and fails
fatally (process-terminating) when fewer than `w` bytes remain; the fatal
failure is modelled as `none`. -/
def getULe (w : Nat) (b : List Nat) : Option (Nat × List Nat) :=
  if w ≤ b.length then some (leValue (b.take w), b.drop w) else none

/-- Two's-complement bit pattern of a signed integer in `w` bytes; models the
bit pattern that Rust `iN::to_le_bytes` emits. -/
def toTwos (w : Nat) (v : Int) : Nat :=
  (v % ((256 ^ w : Nat) : Int)).toNat

/-- Signed value of a `w`-byte two's-complement bit pattern; models Rust
`get_iN_le` (read the unsigned pattern, reinterpret as signed). -/
def fromTwos (w : Nat) (n : Nat) : Int :=
  if 2 * n < 256 ^ w then (n : Int) else (n : Int) - ((256 ^ w : Nat) : Int)

/-- Encoder of `impl ToBytes for usize` (types.rs lines 57-69): one byte for
values below 254, marker 254 plus 4-byte LE below `2 ^ 32`, else marker 255
plus 8-byte LE (the `as u32` / `as u64` truncations are reflected by
`leBytes`). -/
def encodeSize (n : Nat) : List Nat :=
  if n < 254 then [n]
  else if n < 2 ^ 32 then 254 :: leBytes 4 n
  else 255 :: leBytes 8 n

/-- Decoder of `impl FromBytes for usize` (types.rs lines 71-79): read one
byte; 254 means read a u32 LE, 255 means read a u64 LE, anything else is the
value itself. -/
def decodeSize : List Nat → Option (Nat × List Nat)
  | [] => none
  | m :: rest =>
    if m = 254 then getULe 4 rest
    else if m = 255 then getULe 8 rest
    else some (m, rest)

/-- Encoder of `impl ToBytes for bool` (types.rs lines 91-95): the single
ASCII byte of the character 1 (0x31) for true, of 0 (0x30) for false. -/
def encodeBool (v : Bool) : List Nat :=
  if v then [0x31] else [0x30]

/-- Decoder of `impl FromBytes for bool` (types.rs lines 97-101): read one
byte and compare it with 0x31. -/
def decodeBool : List Nat → Option (Bool × List Nat)
  | [] => none
  | c :: rest => some (c == 0x31, rest)

/-- Continuation byte test of UTF-8 (second and later bytes of a multi-byte
sequence lie in 0x80..0xBF). -/
def isCont (b : Nat) : Bool :=
  0x80 ≤ b && b ≤ 0xBF

/-- Validity of a byte sequence as UTF-8, following the algorithm of Rust
`String::from_utf8` (which types.rs line 113 applies and `expect`s):
ASCII below 0x80; two-byte heads 0xC2..0xDF; three-byte heads 0xE0..0xEF
with the restricted first-continuation ranges for 0xE0 and 0xED; four-byte
heads 0xF0..0xF4 with the restricted ranges for 0xF0 and 0xF4. -/
def validUtf8 : List Nat → Bool
  | [] => true
  | b0 :: t0 =>
    if b0 < 0x80 then validUtf8 t0
    else if 0xC2 ≤ b0 && b0 ≤ 0xDF then
      match t0 with
      | b1 :: t1 => isCont b1 && validUtf8 t1
      | [] => false
    else if 0xE0 ≤ b0 && b0 ≤ 0xEF then
      match t0 with
      | b1 :: b2 :: t2 =>
        (if b0 = 0xE0 then 0xA0 ≤ b1 && b1 ≤ 0xBF
         else if b0 = 0xED then 0x80 ≤ b1 && b1 ≤ 0x9F
         else isCont b1) && isCont b2 && validUtf8 t2
      | _ => false
    else if 0xF0 ≤ b0 && b0 ≤ 0xF4 then
      match t0 with
      | b1 :: b2 :: b3 :: t3 =>
        (if b0 = 0xF0 then 0x90 ≤ b1 && b1 ≤ 0xBF
         else if b0 = 0xF4 then 0x80 ≤ b1 && b1 ≤ 0x8F
         else isCont b1) && isCont b2 && isCont b3 && validUtf8 t3
      | _ => false
    else false

/-- Encoder of `impl ToBytes for String` (types.rs lines 103-108): Size of
the byte length, then the raw UTF-8 bytes.  A Rust `String` is modelled by
its UTF-8 byte sequence. -/
def encodeString (s : List Nat) : List Nat :=
  encodeSize s.length ++ s

/-- Decoder of `impl FromBytes for String` (types.rs lines 110-117): read a
Size `n`, slice the next `n` bytes (fatal if fewer remain), validate them as
UTF-8 (`expect`, fatal on failure), advance by `n`. -/
def decodeString (b : List Nat) : Option (List Nat × List Nat) :=
  match decodeSize b with
  | none => none
  | some (n, r) =>
    if n ≤ r.length then
      if validUtf8 (r.take n) then some (r.take n, r.drop n) else none
    else none

/-- Encoder of `impl ToBytes for bytes::Bytes` (types.rs lines 119-124):
Size of the length, then the raw bytes. -/
def encodeBuf (s : List Nat) : List Nat :=
  encodeSize s.length ++ s

/-- Decoder of `impl FromBytes for bytes::Bytes` (types.rs lines 126-133):
read a Size `n`, copy the next `n` bytes (fatal if fewer remain), advance. -/
def decodeBuf (b : List Nat) : Option (List Nat × List Nat) :=
  match decodeSize b with
  | none => none
  | some (n, r) =>
    if n ≤ r.length then some (r.take n, r.drop n) else none

/-- Encoder of `impl ToBytes for Option` (types.rs lines 135-145): byte 0x30
when absent, else byte 0x31 followed by the payload encoding. -/
def encodeOption (e : α → List Nat) : Option α → List Nat
  | none => [0x30]
  | some v => 0x31 :: e v

/-- Decoder of `impl FromBytes for Option` (types.rs lines 147-155): read one
byte; 0x30 means absent, anything else means decode one payload. -/
def decodeOption (d : List Nat → Option (α × List Nat)) :
    List Nat → Option (Option α × List Nat)
  | [] => none
  | c :: rest =>
    if c = 0x30 then some (none, rest)
    else
      match d rest with
      | none => none
      | some (v, r) => some (some v, r)

/-- Encoder body shared by `iter_to_impl!` (types.rs lines 169-176): the
element count as a Size, then each element's encoding in iteration order. -/
def encodeList (e : α → List Nat) (l : List α) : List Nat :=
  encodeSize l.length ++ (l.map e).flatten

/-- Decodes `n` consecutive values with `d`, collecting them in read order;
the loop body of `iter_from_impl!` (types.rs lines 178-184). -/
def decodeCount (d : List Nat → Option (α × List Nat)) :
    Nat → List Nat → Option (List α × List Nat)
  | 0, b => some ([], b)
  | n + 1, b =>
    match d b with
    | none => none
    | some (v, r) =>
      match decodeCount d n r with
      | none => none
      | some (vs, r2) => some (v :: vs, r2)

/-- Decoder body shared by `iter_from_impl!`: read the count as a Size, then
decode that many elements. -/
def decodeList (d : List Nat → Option (α × List Nat)) (b : List Nat) :
    Option (List α × List Nat) :=
  match decodeSize b with
  | none => none
  | some (n, r) => decodeCount d n r

/-- Encoding of one key-value pair: key bytes immediately followed by value
bytes (loop body of `kv_to_impl!`, types.rs lines 250-258). -/
def encPair (ek : κ → List Nat) (ev : ν → List Nat) (p : κ × ν) : List Nat :=
  ek p.1 ++ ev p.2

/-- Decoding of one key-value pair, key first (loop body of `kv_from_impl!`,
types.rs lines 260-266). -/
def decPair (dk : List Nat → Option (κ × List Nat))
    (dv : List Nat → Option (ν × List Nat)) (b : List Nat) :
    Option ((κ × ν) × List Nat) :=
  match dk b with
  | none => none
  | some (k, r) =>
    match dv r with
    | none => none
    | some (v, r2) => some ((k, v), r2)

/-- Encoder body of `kv_to_impl!`: pair count as a Size, then each pair. -/
def encodeKV (ek : κ → List Nat) (ev : ν → List Nat) (l : List (κ × ν)) :
    List Nat :=
  encodeList (encPair ek ev) l

/-- Decoder body of `kv_from_impl!`: read the count, then that many pairs. -/
def decodeKV (dk : List Nat → Option (κ × List Nat))
    (dv : List Nat → Option (ν × List Nat)) (b : List Nat) :
    Option (List (κ × ν) × List Nat) :=
  decodeList (decPair dk dv) b

theorem leBytes_length (w : Nat) : ∀ v, (leBytes w v).length = w := by
  induction w with
  | zero => intro v; rfl
  | succ w ih => intro v; simp [leBytes, ih]

theorem leValue_leBytes (w : Nat) : ∀ v, v < 256 ^ w → leValue (leBytes w v) = v := by
  induction w with
  | zero =>
    intro v hv
    have : v = 0 := by simpa using hv
    simp [this, leBytes, leValue]
  | succ w ih =>
    intro v hv
    have hdiv : v / 256 < 256 ^ w := by
      rw [Nat.div_lt_iff_lt_mul (by norm_num : 0 < 256)]
      calc v < 256 ^ (w + 1) := hv
        _ = 256 ^ w * 256 := by ring
    simp only [leBytes, leValue, ih (v / 256) hdiv]
    omega

theorem getULe_append (w : Nat) (l s : List Nat) (h : l.length = w) :
    getULe w (l ++ s) = some (leValue l, s) := by
  subst h
  simp [getULe, List.take_left, List.drop_left]

theorem getULe_leBytes (w v : Nat) (h : v < 256 ^ w) (s : List Nat) :
    getULe w (leBytes w v ++ s) = some (v, s) := by
  rw [getULe_append w _ s (leBytes_length w v), leValue_leBytes w v h]

theorem decodeSize_encodeSize (n : Nat) (h : n < 2 ^ 64) (s : List Nat) :
    decodeSize (encodeSize n ++ s) = some (n, s) := by
  by_cases h1 : n < 254
  · simp only [encodeSize, if_pos h1, List.cons_append, List.nil_append, decodeSize]
    rw [if_neg (by omega), if_neg (by omega)]
  · by_cases h2 : n < 2 ^ 32
    · simp only [encodeSize, if_neg h1, if_pos h2, List.cons_append, decodeSize, if_pos rfl]
      exact getULe_leBytes 4 n (by norm_num at h2 ⊢; omega) s
    · simp only [encodeSize, if_neg h1, if_neg h2, List.cons_append, decodeSize]
      rw [if_neg (by omega), if_pos trivial]
      exact getULe_leBytes 8 n (by norm_num at h ⊢; omega) s

theorem toTwos_lt (w : Nat) (v : Int) : toTwos w v < 256 ^ w := by
  have hpos : (0 : Int) < ((256 ^ w : Nat) : Int) := by positivity
  have h1 := Int.emod_nonneg v (by omega : ((256 ^ w : Nat) : Int) ≠ 0)
  have h2 := Int.emod_lt_of_pos v hpos
  unfold toTwos
  omega

theorem fromTwos_toTwos (w : Nat) (v : Int)
    (h1 : 0 ≤ 2 * v + ((256 ^ w : Nat) : Int))
    (h2 : 2 * v < ((256 ^ w : Nat) : Int)) :
    fromTwos w (toTwos w v) = v := by
  have hpos : (0 : Int) < ((256 ^ w : Nat) : Int) := by positivity
  set M : Int := ((256 ^ w : Nat) : Int) with hM
  by_cases hv : 0 ≤ v
  · have hlt : v < M := by omega
    have hmod : v % M = v := Int.emod_eq_of_lt hv hlt
    have htn : ((v.toNat : Int)) = v := Int.toNat_of_nonneg hv
    unfold fromTwos toTwos
    rw [← hM, hmod]
    rw [if_pos]
    · omega
    · have : ((v.toNat : Nat) : Int) = v := htn
      omega
  · have hmod : v % M = v + M := by
      have := Int.add_mul_emod_self_left v M 1
      rw [mul_one] at this
      rw [← this]
      exact Int.emod_eq_of_lt (by omega) (by omega)
    have htn : (((v + M).toNat : Int)) = v + M := Int.toNat_of_nonneg (by omega)
    unfold fromTwos toTwos
    rw [← hM, hmod]
    rw [if_neg]
    · omega
    · omega

/-- The closed set of shapes the codec supports: fixed-width unsigned and
signed integers (`num_impls!` at widths 1, 2, 4, 8, 16 bytes), floats by bit
pattern (widths 4 and 8), `usize` (the Size codec), unit, bool, String,
byte buffer, Option, Box, the five element collections (`Vec`, `HashSet`,
`BTreeSet`, `VecDeque`, `BinaryHeap`), the two maps (`HashMap`,
`BTreeMap`), and tuples of arity 1 through 7 (`tuple_impls!`). -/
inductive Shape where
  | uint : Nat → Shape
  | sint : Nat → Shape
  | fbits : Nat → Shape
  | size : Shape
  | unit : Shape
  | bool : Shape
  | str : Shape
  | buf : Shape
  | opt : Shape → Shape
  | box : Shape → Shape
  | vec : Shape → Shape
  | hset : Shape → Shape
  | bset : Shape → Shape
  | deque : Shape → Shape
  | heap : Shape → Shape
  | hmap : Shape → Shape → Shape
  | bmap : Shape → Shape → Shape
  | tup1 : Shape → Shape
  | tup2 : Shape → Shape → Shape
  | tup3 : Shape → Shape → Shape → Shape
  | tup4 : Shape → Shape → Shape → Shape → Shape
  | tup5 : Shape → Shape → Shape → Shape → Shape → Shape
  | tup6 : Shape → Shape → Shape → Shape → Shape → Shape → Shape
  | tup7 : Shape → Shape → Shape → Shape → Shape → Shape → Shape → Shape

/-- The Lean type of values of each shape.  Collections and hash-based maps
are represented by their iteration sequence; floats by their bit pattern. -/
@[reducible] def Value : Shape → Type
  | .uint _ => Nat
  | .sint _ => Int
  | .fbits _ => Nat
  | .size => Nat
  | .unit => Unit
  | .bool => Bool
  | .str => List Nat
  | .buf => List Nat
  | .opt s => Option (Value s)
  | .box s => Value s
  | .vec s => List (Value s)
  | .hset s => List (Value s)
  | .bset s => List (Value s)
  | .deque s => List (Value s)
  | .heap s => List (Value s)
  | .hmap k v => List (Value k × Value v)
  | .bmap k v => List (Value k × Value v)
  | .tup1 a => Value a
  | .tup2 a b => Value a × Value b
  | .tup3 a b c => Value a × Value b × Value c
  | .tup4 a b c d => Value a × Value b × Value c × Value d
  | .tup5 a b c d e => Value a × Value b × Value c × Value d × Value e
  | .tup6 a b c d e f => Value a × Value b × Value c × Value d × Value e × Value f
  | .tup7 a b c d e f g =>
    Value a × Value b × Value c × Value d × Value e × Value f × Value g

/-- `ToBytes::to_bytes` of each shape, emitting into an initially empty sink:
integers via `to_le_bytes` (types.rs lines 28-55), `usize` via the Size
codec, unit emits nothing (line 82), bool one ASCII digit byte, String and
`bytes::Bytes` length-prefixed, `Option` flag-prefixed, `Box` a pure
pass-through (lines 157-161), the collections via `iter_to_impl!`, the maps
via `kv_to_impl!`, and tuples the concatenation of their fields in order
(`tuple_impls!`, lines 301-323). -/
def encode : (s : Shape) → Value s → List Nat
  | .uint w, v => leBytes w v
  | .sint w, v => leBytes w (toTwos w v)
  | .fbits w, v => leBytes w v
  | .size, n => encodeSize n
  | .unit, _ => []
  | .bool, v => encodeBool v
  | .str, s => encodeString s
  | .buf, s => encodeBuf s
  | .opt s, v => encodeOption (encode s) v
  | .box s, v => encode s v
  | .vec s, l => encodeList (encode s) l
  | .hset s, l => encodeList (encode s) l
  | .bset s, l => encodeList (encode s) l
  | .deque s, l => encodeList (encode s) l
  | .heap s, l => encodeList (encode s) l
  | .hmap k v, l => encodeKV (encode k) (encode v) l
  | .bmap k v, l => encodeKV (encode k) (encode v) l
  | .tup1 a, p => encode a p
  | .tup2 a b, p => encode a p.1 ++ encode b p.2
  | .tup3 a b c, p => encode a p.1 ++ encode b p.2.1 ++ encode c p.2.2
  | .tup4 a b c d, p =>
    encode a p.1 ++ encode b p.2.1 ++ encode c p.2.2.1 ++ encode d p.2.2.2
  | .tup5 a b c d e, p =>
    encode a p.1 ++ encode b p.2.1 ++ encode c p.2.2.1 ++ encode d p.2.2.2.1 ++
      encode e p.2.2.2.2
  | .tup6 a b c d e f, p =>
    encode a p.1 ++ encode b p.2.1 ++ encode c p.2.2.1 ++ encode d p.2.2.2.1 ++
      encode e p.2.2.2.2.1 ++ encode f p.2.2.2.2.2
  | .tup7 a b c d e f g, p =>
    encode a p.1 ++ encode b p.2.1 ++ encode c p.2.2.1 ++ encode d p.2.2.2.1 ++
      encode e p.2.2.2.2.1 ++ encode f p.2.2.2.2.2.1 ++ encode g p.2.2.2.2.2.2

/-- `FromBytes::from_bytes` of each shape, reading from the front of the
buffer and returning the remaining bytes; `none` models the fatal failure.
Tuples decode their fields left to right from the shared cursor
(`tuple_impls!`), maps decode the key then the value of each pair. -/
def decode : (s : Shape) → List Nat → Option (Value s × List Nat)
  | .uint w, b => getULe w b
  | .sint w, b =>
    match getULe w b with
    | none => none
    | some (n, r) => some (fromTwos w n, r)
  | .fbits w, b => getULe w b
  | .size, b => decodeSize b
  | .unit, b => some ((), b)
  | .bool, b => decodeBool b
  | .str, b => decodeString b
  | .buf, b => decodeBuf b
  | .opt s, b => decodeOption (decode s) b
  | .box s, b => decode s b
  | .vec s, b => decodeList (decode s) b
  | .hset s, b => decodeList (decode s) b
  | .bset s, b => decodeList (decode s) b
  | .deque s, b => decodeList (decode s) b
  | .heap s, b => decodeList (decode s) b
  | .hmap k v, b => decodeKV (decode k) (decode v) b
  | .bmap k v, b => decodeKV (decode k) (decode v) b
  | .tup1 a, b => decode a b
  | .tup2 a b, buf => decPair (decode a) (decode b) buf
  | .tup3 a b c, buf => decPair (decode a) (decPair (decode b) (decode c)) buf
  | .tup4 a b c d, buf =>
    decPair (decode a) (decPair (decode b) (decPair (decode c) (decode d))) buf
  | .tup5 a b c d e, buf =>
    decPair (decode a)
      (decPair (decode b) (decPair (decode c) (decPair (decode d) (decode e)))) buf
  | .tup6 a b c d e f, buf =>
    decPair (decode a)
      (decPair (decode b)
        (decPair (decode c) (decPair (decode d) (decPair (decode e) (decode f))))) buf
  | .tup7 a b c d e f g, buf =>
    decPair (decode a)
      (decPair (decode b)
        (decPair (decode c)
          (decPair (decode d) (decPair (decode e) (decPair (decode f) (decode g)))))) buf

/-- Side condition making a model value denote an actual Rust value of the
shape: integers lie in the range of their Rust type (for signed types the
two's-complement range, written without division as
`-2 ^ (8 * w - 1) ≤ v < 2 ^ (8 * w - 1)` in the doubled form), float bit
patterns fit their width, every `usize` (in particular every length and
element count) is below `2 ^ 64`, and String bytes are valid UTF-8 (a Rust
`String` always is). -/
def valid : (s : Shape) → Value s → Bool
  | .uint w, v => decide (v < 256 ^ w)
  | .sint w, v =>
    decide (0 ≤ 2 * v + ((256 ^ w : Nat) : Int)) &&
      decide (2 * v < ((256 ^ w : Nat) : Int))
  | .fbits w, v => decide (v < 256 ^ w)
  | .size, n => decide (n < 2 ^ 64)
  | .unit, _ => true
  | .bool, _ => true
  | .str, s => validUtf8 s && decide (s.length < 2 ^ 64)
  | .buf, s => decide (s.length < 2 ^ 64)
  | .opt _, none => true
  | .opt s, some v => valid s v
  | .box s, v => valid s v
  | .vec s, l => decide (l.length < 2 ^ 64) && l.all (valid s)
  | .hset s, l => decide (l.length < 2 ^ 64) && l.all (valid s)
  | .bset s, l => decide (l.length < 2 ^ 64) && l.all (valid s)
  | .deque s, l => decide (l.length < 2 ^ 64) && l.all (valid s)
  | .heap s, l => decide (l.length < 2 ^ 64) && l.all (valid s)
  | .hmap k v, l =>
    decide (l.length < 2 ^ 64) && l.all (fun p => valid k p.1 && valid v p.2)
  | .bmap k v, l =>
    decide (l.length < 2 ^ 64) && l.all (fun p => valid k p.1 && valid v p.2)
  | .tup1 a, p => valid a p
  | .tup2 a b, p => valid a p.1 && valid b p.2
  | .tup3 a b c, p => valid a p.1 && valid b p.2.1 && valid c p.2.2
  | .tup4 a b c d, p =>
    valid a p.1 && valid b p.2.1 && valid c p.2.2.1 && valid d p.2.2.2
  | .tup5 a b c d e, p =>
    valid a p.1 && valid b p.2.1 && valid c p.2.2.1 && valid d p.2.2.2.1 &&
      valid e p.2.2.2.2
  | .tup6 a b c d e f, p =>
    valid a p.1 && valid b p.2.1 && valid c p.2.2.1 && valid d p.2.2.2.1 &&
      valid e p.2.2.2.2.1 && valid f p.2.2.2.2.2
  | .tup7 a b c d e f g, p =>
    valid a p.1 && valid b p.2.1 && valid c p.2.2.1 && valid d p.2.2.2.1 &&
      valid e p.2.2.2.2.1 && valid f p.2.2.2.2.2.1 && valid g p.2.2.2.2.2.2

/-- Minimum number of bytes any successful decode of the shape consumes: the
fixed width for integers, one byte for anything starting with a Size or flag
byte, zero for unit, and the sum over the fields for tuples. -/
def minLen : Shape → Nat
  | .uint w => w
  | .sint w => w
  | .fbits w => w
  | .size => 1
  | .unit => 0
  | .bool => 1
  | .str => 1
  | .buf => 1
  | .opt _ => 1
  | .box s => minLen s
  | .vec _ => 1
  | .hset _ => 1
  | .bset _ => 1
  | .deque _ => 1
  | .heap _ => 1
  | .hmap _ _ => 1
  | .bmap _ _ => 1
  | .tup1 a => minLen a
  | .tup2 a b => minLen a + minLen b
  | .tup3 a b c => minLen a + (minLen b + minLen c)
  | .tup4 a b c d => minLen a + (minLen b + (minLen c + minLen d))
  | .tup5 a b c d e => minLen a + (minLen b + (minLen c + (minLen d + minLen e)))
  | .tup6 a b c d e f =>
    minLen a + (minLen b + (minLen c + (minLen d + (minLen e + minLen f))))
  | .tup7 a b c d e f g =>
    minLen a + (minLen b + (minLen c + (minLen d + (minLen e + (minLen f + minLen g)))))

/-- Statement that the decoder `d`, run on any buffer that begins with the
chunk `x`, consumes exactly `x` and returns `v`: the sequential-composition
property that lets tuple fields and generated aggregate fields share one
cursor. -/
def DecodesTo (d : List Nat → Option (α × List Nat)) (x : List Nat) (v : α) : Prop :=
  ∀ t, d (x ++ t) = some (v, t)

theorem decPair_decodesTo {dk : List Nat → Option (κ × List Nat)}
    {dv : List Nat → Option (ν × List Nat)} {x y : List Nat} {k : κ} {v : ν}
    (hk : DecodesTo dk x k) (hv : DecodesTo dv y v) :
    DecodesTo (decPair dk dv) (x ++ y) (k, v) := by
  intro t
  rw [List.append_assoc]
  simp [decPair, hk (y ++ t), hv t]

theorem decodeCount_decodesTo (d : List Nat → Option (α × List Nat))
    (e : α → List Nat) (l : List α) (h : ∀ v ∈ l, DecodesTo d (e v) v) :
    DecodesTo (decodeCount d l.length) (l.map e).flatten l := by
  induction l with
  | nil => intro t; simp [decodeCount]
  | cons v vs ih =>
    intro t
    have hv := h v (by simp)
    have hvs : ∀ x ∈ vs, DecodesTo d (e x) x := fun x hx => h x (by simp [hx])
    simp only [List.map_cons, List.flatten_cons, List.append_assoc, List.length_cons]
    simp [decodeCount, hv ((List.map e vs).flatten ++ t), ih hvs t]

theorem decodeList_decodesTo (d : List Nat → Option (α × List Nat))
    (e : α → List Nat) (l : List α) (hlen : l.length < 2 ^ 64)
    (h : ∀ v ∈ l, DecodesTo d (e v) v) :
    DecodesTo (decodeList d) (encodeList e l) l := by
  intro t
  simp only [encodeList, decodeList, List.append_assoc]
  rw [decodeSize_encodeSize l.length hlen]
  exact decodeCount_decodesTo d e l h t

theorem decode_encode_of_valid (s : Shape) :
    ∀ (v : Value s), valid s v = true → DecodesTo (decode s) (encode s v) v := by
  induction s with
  | uint w =>
    intro v hv t
    have h : v < 256 ^ w := by simpa [valid] using hv
    simpa [decode, encode] using getULe_leBytes w v h t
  | sint w =>
    intro v hv t
    simp only [valid, Bool.and_eq_true, decide_eq_true_eq] at hv
    simp only [decode, encode]
    rw [getULe_leBytes w _ (toTwos_lt w v) t]
    simp [fromTwos_toTwos w v hv.1 hv.2]
  | fbits w =>
    intro v hv t
    have h : v < 256 ^ w := by simpa [valid] using hv
    simpa [decode, encode] using getULe_leBytes w v h t
  | size =>
    intro n hn t
    have h : n < 2 ^ 64 := by simpa [valid] using hn
    simpa [decode, encode] using decodeSize_encodeSize n h t
  | unit =>
    intro v _ t
    cases v
    simp [decode, encode]
  | bool =>
    intro v _ t
    cases v <;> simp [decode, encode, encodeBool, decodeBool]
  | str =>
    intro s0 hv t
    simp only [valid, Bool.and_eq_true, decide_eq_true_eq] at hv
    simp only [decode, encode, encodeString, decodeString, List.append_assoc]
    rw [decodeSize_encodeSize s0.length hv.2]
    simp [List.take_left, List.drop_left, hv.1]
  | buf =>
    intro s0 hv t
    have hlen : s0.length < 2 ^ 64 := by simpa [valid] using hv
    simp only [decode, encode, encodeBuf, decodeBuf, List.append_assoc]
    rw [decodeSize_encodeSize s0.length hlen]
    simp [List.take_left, List.drop_left]
  | opt s ih =>
    intro v hv t
    cases v with
    | none => simp [decode, encode, encodeOption, decodeOption]
    | some x =>
      have hx : valid s x = true := by simpa [valid] using hv
      simp [decode, encode, encodeOption, decodeOption, ih x hx t]
  | box s ih =>
    intro v hv t
    simpa [decode, encode] using ih v (by simpa [valid] using hv) t
  | vec s ih =>
    intro l hv t
    simp only [valid, Bool.and_eq_true, decide_eq_true_eq, List.all_eq_true] at hv
    exact decodeList_decodesTo _ _ l hv.1 (fun x hx => ih x (hv.2 x hx)) t
  | hset s ih =>
    intro l hv t
    simp only [valid, Bool.and_eq_true, decide_eq_true_eq, List.all_eq_true] at hv
    exact decodeList_decodesTo _ _ l hv.1 (fun x hx => ih x (hv.2 x hx)) t
  | bset s ih =>
    intro l hv t
    simp only [valid, Bool.and_eq_true, decide_eq_true_eq, List.all_eq_true] at hv
    exact decodeList_decodesTo _ _ l hv.1 (fun x hx => ih x (hv.2 x hx)) t
  | deque s ih =>
    intro l hv t
    simp only [valid, Bool.and_eq_true, decide_eq_true_eq, List.all_eq_true] at hv
    exact decodeList_decodesTo _ _ l hv.1 (fun x hx => ih x (hv.2 x hx)) t
  | heap s ih =>
    intro l hv t
    simp only [valid, Bool.and_eq_true, decide_eq_true_eq, List.all_eq_true] at hv
    exact decodeList_decodesTo _ _ l hv.1 (fun x hx => ih x (hv.2 x hx)) t
  | hmap k v ihk ihv =>
    intro l hv t
    simp only [valid, Bool.and_eq_true, decide_eq_true_eq, List.all_eq_true] at hv
    refine decodeList_decodesTo _ _ l hv.1 (fun p hp => ?_) t
    have h := hv.2 p hp
    simp only [Bool.and_eq_true] at h
    simpa [encPair] using decPair_decodesTo (ihk p.1 h.1) (ihv p.2 h.2)
  | bmap k v ihk ihv =>
    intro l hv t
    simp only [valid, Bool.and_eq_true, decide_eq_true_eq, List.all_eq_true] at hv
    refine decodeList_decodesTo _ _ l hv.1 (fun p hp => ?_) t
    have h := hv.2 p hp
    simp only [Bool.and_eq_true] at h
    simpa [encPair] using decPair_decodesTo (ihk p.1 h.1) (ihv p.2 h.2)
  | tup1 a ih =>
    intro p hp t
    simpa [decode, encode] using ih p (by simpa [valid] using hp) t
  | tup2 a b iha ihb =>
    intro p hp t
    simp only [valid, Bool.and_eq_true] at hp
    simpa [decode, encode] using
      decPair_decodesTo (iha p.1 hp.1) (ihb p.2 hp.2) t
  | tup3 a b c iha ihb ihc =>
    intro p hp t
    simp only [valid, Bool.and_eq_true] at hp
    have := decPair_decodesTo (iha p.1 hp.1.1)
      (decPair_decodesTo (ihb p.2.1 hp.1.2) (ihc p.2.2 hp.2)) t
    simpa [decode, encode, List.append_assoc] using this
  | tup4 a b c d iha ihb ihc ihd =>
    intro p hp t
    simp only [valid, Bool.and_eq_true] at hp
    have := decPair_decodesTo (iha p.1 hp.1.1.1)
      (decPair_decodesTo (ihb p.2.1 hp.1.1.2)
        (decPair_decodesTo (ihc p.2.2.1 hp.1.2) (ihd p.2.2.2 hp.2))) t
    simpa [decode, encode, List.append_assoc] using this
  | tup5 a b c d e iha ihb ihc ihd ihe =>
    intro p hp t
    simp only [valid, Bool.and_eq_true] at hp
    have := decPair_decodesTo (iha p.1 hp.1.1.1.1)
      (decPair_decodesTo (ihb p.2.1 hp.1.1.1.2)
        (decPair_decodesTo (ihc p.2.2.1 hp.1.1.2)
          (decPair_decodesTo (ihd p.2.2.2.1 hp.1.2) (ihe p.2.2.2.2 hp.2)))) t
    simpa [decode, encode, List.append_assoc] using this
  | tup6 a b c d e f iha ihb ihc ihd ihe ihf =>
    intro p hp t
    simp only [valid, Bool.and_eq_true] at hp
    have := decPair_decodesTo (iha p.1 hp.1.1.1.1.1)
      (decPair_decodesTo (ihb p.2.1 hp.1.1.1.1.2)
        (decPair_decodesTo (ihc p.2.2.1 hp.1.1.1.2)
          (decPair_decodesTo (ihd p.2.2.2.1 hp.1.1.2)
            (decPair_decodesTo (ihe p.2.2.2.2.1 hp.1.2) (ihf p.2.2.2.2.2 hp.2))))) t
    simpa [decode, encode, List.append_assoc] using this
  | tup7 a b c d e f g iha ihb ihc ihd ihe ihf ihg =>
    intro p hp t
    simp only [valid, Bool.and_eq_true] at hp
    have := decPair_decodesTo (iha p.1 hp.1.1.1.1.1.1)
      (decPair_decodesTo (ihb p.2.1 hp.1.1.1.1.1.2)
        (decPair_decodesTo (ihc p.2.2.1 hp.1.1.1.1.2)
          (decPair_decodesTo (ihd p.2.2.2.1 hp.1.1.1.2)
            (decPair_decodesTo (ihe p.2.2.2.2.1 hp.1.1.2)
              (decPair_decodesTo (ihf p.2.2.2.2.2.1 hp.1.2)
                (ihg p.2.2.2.2.2.2 hp.2)))))) t
    simpa [decode, encode, List.append_assoc] using this

theorem getULe_length {w : Nat} {b : List Nat} {n : Nat} {r : List Nat}
    (h : getULe w b = some (n, r)) : w + r.length = b.length := by
  unfold getULe at h
  split at h
  · rename_i hw
    simp only [Option.some.injEq, Prod.mk.injEq] at h
    obtain ⟨h1, h2⟩ := h
    subst h2
    simp [List.length_drop]
    omega
  · exact absurd h (by simp)

theorem decodeSize_length {b : List Nat} {n : Nat} {r : List Nat}
    (h : decodeSize b = some (n, r)) : 1 + r.length ≤ b.length := by
  match b with
  | [] => exact absurd h (by simp [decodeSize])
  | m :: rest =>
    simp only [decodeSize] at h
    split at h
    · have := getULe_length h
      simp only [List.length_cons]
      omega
    · split at h
      · have := getULe_length h
        simp only [List.length_cons]
        omega
      · simp only [Option.some.injEq, Prod.mk.injEq] at h
        obtain ⟨h1, h2⟩ := h
        subst h2
        simp only [List.length_cons]
        omega

theorem decodeCount_length {d : List Nat → Option (α × List Nat)}
    (mono : ∀ b v r, d b = some (v, r) → r.length ≤ b.length) :
    ∀ n b vs r, decodeCount d n b = some (vs, r) → r.length ≤ b.length := by
  intro n
  induction n with
  | zero =>
    intro b vs r h
    simp only [decodeCount, Option.some.injEq, Prod.mk.injEq] at h
    obtain ⟨h1, h2⟩ := h
    subst h2
    exact le_refl _
  | succ n ih =>
    intro b vs r h
    simp only [decodeCount] at h
    split at h
    · exact absurd h (by simp)
    · rename_i v r1 heq
      split at h
      · exact absurd h (by simp)
      · rename_i vs1 r2 heq2
        simp only [Option.some.injEq, Prod.mk.injEq] at h
        obtain ⟨h1, h2⟩ := h
        subst h2
        exact le_trans (ih r1 vs1 r2 heq2) (mono b v r1 heq)

theorem decodeList_length {d : List Nat → Option (α × List Nat)}
    (mono : ∀ b v r, d b = some (v, r) → r.length ≤ b.length) :
    ∀ b vs r, decodeList d b = some (vs, r) → 1 + r.length ≤ b.length := by
  intro b vs r h
  simp only [decodeList] at h
  split at h
  · exact absurd h (by simp)
  · rename_i n r1 heq
    have h1 := decodeSize_length heq
    have h2 := decodeCount_length mono n r1 vs r h
    omega

theorem decPair_length {dk : List Nat → Option (κ × List Nat)}
    {dv : List Nat → Option (ν × List Nat)} {na nb : Nat}
    (hk : ∀ b k r, dk b = some (k, r) → na + r.length ≤ b.length)
    (hv : ∀ b v r, dv b = some (v, r) → nb + r.length ≤ b.length) :
    ∀ b p r, decPair dk dv b = some (p, r) → na + nb + r.length ≤ b.length := by
  intro b p r h
  simp only [decPair] at h
  split at h
  · exact absurd h (by simp)
  · rename_i k r1 heq
    split at h
    · exact absurd h (by simp)
    · rename_i v r2 heq2
      simp only [Option.some.injEq, Prod.mk.injEq] at h
      obtain ⟨h1, h2⟩ := h
      subst h2
      have := hk b k r1 heq
      have := hv r1 v r2 heq2
      omega

theorem decode_min_length (s : Shape) :
    ∀ (b : List Nat) (v : Value s) (r : List Nat),
      decode s b = some (v, r) → minLen s + r.length ≤ b.length := by
  induction s with
  | uint w =>
    intro b v r h
    have := getULe_length (h : getULe w b = some (v, r))
    simp only [minLen]
    omega
  | sint w =>
    intro b v r h
    simp only [decode] at h
    split at h
    · exact absurd h (by simp)
    · rename_i n r1 heq
      simp only [Option.some.injEq, Prod.mk.injEq] at h
      obtain ⟨h1, h2⟩ := h
      subst h2
      have := getULe_length heq
      simp only [minLen]
      omega
  | fbits w =>
    intro b v r h
    have := getULe_length (h : getULe w b = some (v, r))
    simp only [minLen]
    omega
  | size =>
    intro b v r h
    exact decodeSize_length (h : decodeSize b = some (v, r))
  | unit =>
    intro b v r h
    simp only [decode, Option.some.injEq, Prod.mk.injEq] at h
    obtain ⟨h1, h2⟩ := h
    subst h2
    simp [minLen]
  | bool =>
    intro b v r h
    match b with
    | [] => exact absurd h (by simp [decode, decodeBool])
    | c :: rest =>
      simp only [decode, decodeBool, Option.some.injEq, Prod.mk.injEq] at h
      obtain ⟨h1, h2⟩ := h
      subst h2
      simp only [minLen, List.length_cons]
      omega
  | str =>
    intro b v r h
    simp only [decode, decodeString] at h
    split at h
    · exact absurd h (by simp)
    · rename_i n r1 heq
      split at h
      · split at h
        · rename_i hn hu
          simp only [Option.some.injEq, Prod.mk.injEq] at h
          obtain ⟨h1, h2⟩ := h
          subst h2
          have := decodeSize_length heq
          simp only [minLen, List.length_drop]
          omega
        · exact absurd h (by simp)
      · exact absurd h (by simp)
  | buf =>
    intro b v r h
    simp only [decode, decodeBuf] at h
    split at h
    · exact absurd h (by simp)
    · rename_i n r1 heq
      split at h
      · rename_i hn
        simp only [Option.some.injEq, Prod.mk.injEq] at h
        obtain ⟨h1, h2⟩ := h
        subst h2
        have := decodeSize_length heq
        simp only [minLen, List.length_drop]
        omega
      · exact absurd h (by simp)
  | opt s ih =>
    intro b v r h
    match b with
    | [] => exact absurd h (by simp [decode, decodeOption])
    | c :: rest =>
      simp only [decode, decodeOption] at h
      split at h
      · simp only [Option.some.injEq, Prod.mk.injEq] at h
        obtain ⟨h1, h2⟩ := h
        subst h2
        simp only [minLen, List.length_cons]
        omega
      · split at h
        · exact absurd h (by simp)
        · rename_i x r1 heq
          simp only [Option.some.injEq, Prod.mk.injEq] at h
          obtain ⟨h1, h2⟩ := h
          subst h2
          have := ih rest x r1 heq
          simp only [minLen, List.length_cons]
          omega
  | box s ih =>
    intro b v r h
    simpa [minLen] using ih b v r h
  | vec s ih =>
    intro b v r h
    have := decodeList_length (fun b v r hh => by have := ih b v r hh; omega) b v r h
    simpa [minLen] using this
  | hset s ih =>
    intro b v r h
    have := decodeList_length (fun b v r hh => by have := ih b v r hh; omega) b v r h
    simpa [minLen] using this
  | bset s ih =>
    intro b v r h
    have := decodeList_length (fun b v r hh => by have := ih b v r hh; omega) b v r h
    simpa [minLen] using this
  | deque s ih =>
    intro b v r h
    have := decodeList_length (fun b v r hh => by have := ih b v r hh; omega) b v r h
    simpa [minLen] using this
  | heap s ih =>
    intro b v r h
    have := decodeList_length (fun b v r hh => by have := ih b v r hh; omega) b v r h
    simpa [minLen] using this
  | hmap k v ihk ihv =>
    intro b p r h
    have hpair := decPair_length
      (fun b k r hh => ihk b k r hh) (fun b v r hh => ihv b v r hh)
    have := decodeList_length (fun b p r hh => by have := hpair b p r hh; omega) b p r h
    simpa [minLen] using this
  | bmap k v ihk ihv =>
    intro b p r h
    have hpair := decPair_length
      (fun b k r hh => ihk b k r hh) (fun b v r hh => ihv b v r hh)
    have := decodeList_length (fun b p r hh => by have := hpair b p r hh; omega) b p r h
    simpa [minLen] using this
  | tup1 a ih =>
    intro b v r h
    simpa [minLen] using ih b v r h
  | tup2 a b iha ihb =>
    intro buf p r h
    have := decPair_length iha ihb buf p r h
    simpa [minLen] using this
  | tup3 a b c iha ihb ihc =>
    intro buf p r h
    have := decPair_length iha (decPair_length ihb ihc) buf p r h
    simp only [minLen]
    omega
  | tup4 a b c d iha ihb ihc ihd =>
    intro buf p r h
    have := decPair_length iha (decPair_length ihb (decPair_length ihc ihd)) buf p r h
    simp only [minLen]
    omega
  | tup5 a b c d e iha ihb ihc ihd ihe =>
    intro buf p r h
    have := decPair_length iha
      (decPair_length ihb (decPair_length ihc (decPair_length ihd ihe))) buf p r h
    simp only [minLen]
    omega
  | tup6 a b c d e f iha ihb ihc ihd ihe ihf =>
    intro buf p r h
    have := decPair_length iha
      (decPair_length ihb
        (decPair_length ihc (decPair_length ihd (decPair_length ihe ihf)))) buf p r h
    simp only [minLen]
    omega
  | tup7 a b c d e f g iha ihb ihc ihd ihe ihf ihg =>
    intro buf p r h
    have := decPair_length iha
      (decPair_length ihb
        (decPair_length ihc
          (decPair_length ihd
            (decPair_length ihe (decPair_length ihf ihg))))) buf p r h
    simp only [minLen]
    omega

/-- C1: Round-trip law — for every supported shape (scalars, floats, bool,
unit, String, byte buffer, Option, Box, Vec, HashSet, BTreeSet, VecDeque,
BinaryHeap, HashMap, BTreeMap, tuples of arity 1-7: all constructors of
`Shape`) and every value of that shape, decoding the bytes produced by
encoding the value yields the value back, consuming exactly the whole
encoding and leaving zero bytes unread. -/
theorem roundTrip_law (s : Shape) (v : Value s) (h : valid s v = true) :
    decode s (encode s v) = some (v, []) := by
  simpa using decode_encode_of_valid s v h []

theorem roundTrip_law_witness :
    valid (.tup2 (.opt (.uint 2)) (.vec .bool)) (some 256, [true, false]) = true ∧
    decode (.tup2 (.opt (.uint 2)) (.vec .bool))
        (encode (.tup2 (.opt (.uint 2)) (.vec .bool)) (some 256, [true, false])) =
      some ((some 256, [true, false]), []) :=
  ⟨by decide, roundTrip_law _ _ (by decide)⟩

/-- C2: the Size codec is exactly three-tier: one byte holding `n` itself
for `n` below 254; marker byte 254 followed by `n` as 4-byte little-endian
(5 bytes total) for `254 ≤ n < 2 ^ 32`, including the reserved edge cases
n = 254 and n = 255 which never use the 1-byte form; marker byte 255
followed by `n` as 8-byte little-endian (9 bytes total) for `n ≥ 2 ^ 32`.
Decoding inverts each tier: first byte 254 means read a u32 LE, first byte
255 means read a u64 LE, any other first byte `m ≤ 253` is itself the
value. -/
theorem sizeCodec_three_tier :
    (∀ n, n < 254 → encodeSize n = [n]) ∧
    (∀ n, 254 ≤ n → n < 2 ^ 32 →
      encodeSize n = 254 :: leBytes 4 n ∧ (encodeSize n).length = 5) ∧
    (∀ n, 2 ^ 32 ≤ n → encodeSize n = 255 :: leBytes 8 n ∧ (encodeSize n).length = 9) ∧
    encodeSize 254 = [254, 254, 0, 0, 0] ∧
    encodeSize 255 = [254, 255, 0, 0, 0] ∧
    (∀ r, decodeSize (254 :: r) = getULe 4 r) ∧
    (∀ r, decodeSize (255 :: r) = getULe 8 r) ∧
    (∀ m r, m ≤ 253 → decodeSize (m :: r) = some (m, r)) := by
  refine ⟨?_, ?_, ?_, by decide, by decide, ?_, ?_, ?_⟩
  · intro n h
    simp [encodeSize, h]
  · intro n h1 h2
    rw [encodeSize, if_neg (by omega), if_pos h2]
    simp [leBytes_length]
  · intro n h
    rw [encodeSize, if_neg (by omega), if_neg (by omega)]
    simp [leBytes_length]
  · intro r
    simp [decodeSize]
  · intro r
    simp [decodeSize]
  · intro m r h
    rw [decodeSize, if_neg (by omega), if_neg (by omega)]

theorem sizeCodec_three_tier_witness :
    encodeSize 7 = [7] ∧
    encodeSize 300 = 254 :: leBytes 4 300 ∧
    (encodeSize 300).length = 5 ∧
    encodeSize (2 ^ 32) = 255 :: leBytes 8 (2 ^ 32) ∧
    decodeSize (200 :: [9]) = some (200, [9]) :=
  ⟨sizeCodec_three_tier.1 7 (by decide),
   (sizeCodec_three_tier.2.1 300 (by decide) (by decide)).1,
   (sizeCodec_three_tier.2.1 300 (by decide) (by decide)).2,
   (sizeCodec_three_tier.2.2.1 (2 ^ 32) (by decide)).1,
   sizeCodec_three_tier.2.2.2.2.2.2.2 200 [9] (by decide)⟩

/-- C3: fatal on truncation — for every shape, decoding a buffer that holds
fewer bytes than the shape's minimum required length fails fatally
(`none`, the model of the Rust panic/abort); no value is produced and no
recoverable error value exists in the decode path. -/
theorem decode_truncation_fatal (s : Shape) (b : List Nat)
    (h : b.length < minLen s) : decode s b = none := by
  cases hd : decode s b with
  | none => rfl
  | some p =>
    have := decode_min_length s b p.1 p.2 (by rw [hd])
    omega

theorem decode_truncation_fatal_witness :
    ([1, 2] : List Nat).length < minLen (.uint 4) ∧
    decode (.uint 4) [1, 2] = none :=
  ⟨by decide, decode_truncation_fatal (.uint 4) [1, 2] (by decide)⟩

/-- C4: String decoding reads a Size length prefix, takes that many
following bytes and validates them as UTF-8: a valid span is returned with
exactly the span consumed, while an invalid span makes the decode fail
fatally (`none`, the model of the `expect` panic) instead of returning any
value or error result. -/
theorem string_decode_validates_utf8 :
    (∀ n rest, n < 2 ^ 64 → n ≤ List.length rest → validUtf8 (rest.take n) = true →
      decodeString (encodeSize n ++ rest) = some (rest.take n, rest.drop n)) ∧
    (∀ n rest, n < 2 ^ 64 → n ≤ List.length rest → validUtf8 (rest.take n) = false →
      decodeString (encodeSize n ++ rest) = none) := by
  constructor
  · intro n rest h1 h2 h3
    simp only [decodeString]
    rw [decodeSize_encodeSize n h1]
    simp [h2, h3]
  · intro n rest h1 h2 h3
    simp only [decodeString]
    rw [decodeSize_encodeSize n h1]
    simp [h2, h3]

theorem string_decode_validates_utf8_witness :
    decodeString (encodeSize 1 ++ [97]) =
      some (List.take 1 [97], List.drop 1 [97]) ∧
    decodeString (encodeSize 1 ++ [255]) = none :=
  ⟨string_decode_validates_utf8.1 1 [97] (by decide) (by decide) (by decide),
   string_decode_validates_utf8.2 1 [255] (by decide) (by decide) (by decide)⟩

/-- C5 counterexample: two HashSet instances holding the same elements —
iteration sequences `[1, 2]` and `[2, 1]`, permutations of one another,
hence logically equal sets — produce different encodings, so the encoding
of a hash-based collection is not a pure function of its logical value. -/
theorem hashSet_encode_not_value_determined :
    ([1, 2] : List Nat).Perm [2, 1] ∧
    encode (.hset (.uint 1)) [1, 2] ≠ encode (.hset (.uint 1)) [2, 1] :=
  ⟨by decide, by decide⟩

/-- C5 amended: the encoding of every shape is a pure function of the
encoded instance (for hash-based collections, of its iteration sequence);
two logically-equal hash-based instances whose iteration sequences differ
may produce different encodings, but each encoding still round-trips and
the decoded values remain logically equal (a permutation of one another). -/
theorem hashSet_roundTrip_logical_equality (s : Shape) (l1 l2 : List (Value s))
    (hperm : l1.Perm l2)
    (h1 : valid (.hset s) l1 = true) (h2 : valid (.hset s) l2 = true) :
    ∃ r1 r2 : List (Value s),
      decode (.hset s) (encode (.hset s) l1) = some (r1, []) ∧
      decode (.hset s) (encode (.hset s) l2) = some (r2, []) ∧ r1.Perm r2 := by
  refine ⟨l1, l2, ?_, ?_, hperm⟩
  · simpa using decode_encode_of_valid (.hset s) l1 h1 []
  · simpa using decode_encode_of_valid (.hset s) l2 h2 []

theorem hashSet_roundTrip_logical_equality_witness :
    ∃ r1 r2 : List Nat,
      decode (.hset (.uint 1)) (encode (.hset (.uint 1)) [1, 2]) = some (r1, []) ∧
      decode (.hset (.uint 1)) (encode (.hset (.uint 1)) [2, 1]) = some (r2, []) ∧
      r1.Perm r2 :=
  hashSet_roundTrip_logical_equality (.uint 1) [1, 2] [2, 1]
    (by decide) (by decide) (by decide)

/-- C6: boolean asymmetry — encoding true yields exactly the byte 0x31 and
false exactly 0x30; decoding consumes exactly one byte and yields true if
and only if that byte is 0x31, every other byte (e.g. 0x00, 0x32) decoding
to false. -/
theorem bool_codec_asymmetry :
    encodeBool true = [0x31] ∧ encodeBool false = [0x30] ∧
    (∀ c r, decodeBool (c :: r) = some (c == 0x31, r)) ∧
    (∀ c r, decodeBool (c :: r) = some (true, r) ↔ c = 0x31) ∧
    (∀ r, decodeBool (0x00 :: r) = some (false, r)) ∧
    (∀ r, decodeBool (0x32 :: r) = some (false, r)) := by
  refine ⟨rfl, rfl, fun c r => rfl, fun c r => ?_, fun r => rfl, fun r => rfl⟩
  simp [decodeBool]

/-- C7: optional layout — `None` encodes to the single byte 0x30 and
`Some v` to 0x31 followed by the payload encoding (so `Some (256 : u16)`
encodes to exactly 0x31 0x00 0x01); decoding reads one byte, returns absent
exactly when that byte is 0x30, and otherwise decodes one payload and
returns it as present. -/
theorem option_codec_layout :
    (∀ (α : Type) (e : α → List Nat), encodeOption e none = [0x30]) ∧
    (∀ (α : Type) (e : α → List Nat) (v : α), encodeOption e (some v) = 0x31 :: e v) ∧
    encode (.opt (.uint 2)) (some 256) = [0x31, 0x00, 0x01] ∧
    encode (.opt (.uint 2)) none = [0x30] ∧
    (∀ (α : Type) (d : List Nat → Option (α × List Nat)) (r : List Nat),
      decodeOption d (0x30 :: r) = some (none, r)) ∧
    (∀ (α : Type) (d : List Nat → Option (α × List Nat)) (c : Nat) (r : List Nat),
      c ≠ 0x30 →
        decodeOption d (c :: r) = (d r).map (fun p => (some p.1, p.2))) := by
  refine ⟨fun α e => rfl, fun α e v => rfl, by decide, by decide,
    fun α d r => by simp [decodeOption], fun α d c r hc => ?_⟩
  cases hd : d r with
  | none => simp [decodeOption, hc, hd]
  | some p => simp [decodeOption, hc, hd]

theorem option_codec_layout_witness :
    decodeOption (getULe 2) (0x31 :: [0, 1]) =
      (getULe 2 [0, 1]).map (fun p => (some p.1, p.2)) :=
  option_codec_layout.2.2.2.2.2 Nat (getULe 2) 0x31 [0, 1] (by decide)

/-- C8: scalar tuple scenario — encoding the 3-tuple of i8 value -5, u32
value 10 and usize value 300 produces exactly the ten bytes
FB 0A 00 00 00 FE 2C 01 00 00, and decoding those ten bytes yields the
original tuple with zero bytes remaining. -/
theorem scalar_tuple_scenario :
    encode (.tup3 (.sint 1) (.uint 4) .size) ((-5 : Int), 10, 300) =
      [0xFB, 0x0A, 0x00, 0x00, 0x00, 0xFE, 0x2C, 0x01, 0x00, 0x00] ∧
    (encode (.tup3 (.sint 1) (.uint 4) .size) ((-5 : Int), 10, 300)).length = 10 ∧
    decode (.tup3 (.sint 1) (.uint 4) .size)
        [0xFB, 0x0A, 0x00, 0x00, 0x00, 0xFE, 0x2C, 0x01, 0x00, 0x00] =
      some (((-5 : Int), 10, 300), []) :=
  ⟨by decide, by decide, by decide⟩

/-- C9: prefix-decoding stability — for every supported shape, every value
of it and every byte suffix, decoding the concatenation of the value's
encoding with the suffix yields the value and advances past exactly the
encoding, leaving precisely the suffix unread; this is what lets tuple
fields and generated aggregate fields decode sequentially from one shared
cursor. -/
theorem decode_prefix_stability (s : Shape) (v : Value s) (h : valid s v = true)
    (suffix : List Nat) :
    decode s (encode s v ++ suffix) = some (v, suffix) :=
  decode_encode_of_valid s v h suffix

theorem decode_prefix_stability_witness :
    decode (.uint 2) (encode (.uint 2) 258 ++ [7, 7]) = some (258, [7, 7]) :=
  decode_prefix_stability (.uint 2) 258 (by decide) [7, 7]

/-- C10: non-canonical acceptance by the Size decoder — for every `k` below
254, the 5-byte sequence of marker 254 followed by `k` as 4-byte LE decodes
to `k`, and the 9-byte marker-255 form decodes to whatever value it
carries, even though the encoder would emit the short form; the decoder
never rejects a non-canonical size encoding. -/
theorem sizeCodec_non_canonical_accepted :
    (∀ k, k < 254 → ∀ r, decodeSize (254 :: (leBytes 4 k ++ r)) = some (k, r)) ∧
    (∀ k, k < 2 ^ 64 → ∀ r, decodeSize (255 :: (leBytes 8 k ++ r)) = some (k, r)) := by
  constructor
  · intro k hk r
    rw [decodeSize, if_pos rfl]
    refine getULe_leBytes 4 k ?_ r
    have h4 : (256 : Nat) ^ 4 = 4294967296 := by norm_num
    omega
  · intro k hk r
    rw [decodeSize, if_neg (by omega), if_pos rfl]
    refine getULe_leBytes 8 k ?_ r
    have h8 : (256 : Nat) ^ 8 = 2 ^ 64 := by norm_num
    omega

theorem sizeCodec_non_canonical_accepted_witness :
    decodeSize (254 :: (leBytes 4 5 ++ [])) = some (5, []) ∧
    decodeSize (255 :: (leBytes 8 300 ++ [9])) = some (300, [9]) :=
  ⟨sizeCodec_non_canonical_accepted.1 5 (by decide) [],
   sizeCodec_non_canonical_accepted.2 300 (by decide) [9]⟩

end YaBinary
